import Mathlib

/-!
# Verification of scilib's series statistics and spherical coordinates

Shallow embedding of `src/math/series.rs` and `src/coordinate/spherical.rs`.
Numbers are modelled by exact arithmetic: `ℚ` for the computable layer
(Rust `f64` values and arithmetic, without rounding), and `ℝ` where the code
calls `sqrt`.  Lean's total-division convention `x / 0 = 0` stands in for the
IEEE non-finite results (`inf`/`NaN`) the Rust code produces at a division by
zero; the theorems concerned with those cases only use the facts that are
convention-independent (that the raw division is performed and that a plain
value, not an error, is returned).
-/

namespace Scilib

/-- Embedding of `max_slice` (`src/math/series.rs`, lines 26-38): starts from
`val[0]` and scans the whole slice with a strict `>` comparison, replacing the
current maximum only when strictly exceeded.  On the empty list the Rust code
panics at `val[0]`; the embedding returns the junk default `0` there, and every
theorem about `max_slice` assumes nonemptiness. -/
def max_slice (val : List ℚ) : ℚ :=
  val.foldl (fun current_max v => if current_max < v then v else current_max)
    (val.headD 0)

/-- Embedding of `min_slice` (`src/math/series.rs`, lines 57-69): symmetric to
`max_slice`, with a strict `<` comparison. -/
def min_slice (val : List ℚ) : ℚ :=
  val.foldl (fun current_min v => if v < current_min then v else current_min)
    (val.headD 0)

/-- Embedding of `mean` (`src/math/series.rs`, lines 92-95):
left fold summing the elements, divided by the length. -/
def mean (val : List ℚ) : ℚ :=
  val.foldl (fun sum v => sum + v) 0 / (val.length : ℚ)

/-- The sum of squared deviations from `mean val`, as the left fold inside
`std_dev` (`src/math/series.rs`, line 123) computes it. -/
def sqDevSum (val : List ℚ) : ℚ :=
  val.foldl (fun sum v => sum + (v - mean val) ^ 2) 0

/-- Embedding of `std_dev` (`src/math/series.rs`, lines 120-124): square root
of the mean of squared deviations from the mean (denominator `n`). -/
noncomputable def std_dev (val : List ℚ) : ℝ :=
  Real.sqrt ((sqDevSum val / (val.length : ℚ) : ℚ) : ℝ)

/-- The accumulator loop of `pearson_r` (`src/math/series.rs`, lines 155-161):
one pass over the zipped pairs, accumulating the centered product `t` and the
two centered squares `b_x`, `b_y`. -/
def pearsonSums (mean_x mean_y : ℚ) (pairs : List (ℚ × ℚ)) : ℚ × ℚ × ℚ :=
  pairs.foldl
    (fun acc p =>
      (acc.1 + (p.1 - mean_x) * (p.2 - mean_y),
       acc.2.1 + (p.1 - mean_x) ^ 2,
       acc.2.2 + (p.2 - mean_y) ^ 2))
    (0, 0, 0)

/-- Embedding of `pearson_r` (`src/math/series.rs`, lines 144-164): means over
the two full series, one pass over `sample_x.zip sample_y` (which stops at the
shorter series), then `t / (b_x * b_y).sqrt()`.  There is no length check. -/
noncomputable def pearson_r (sample_x sample_y : List ℚ) : ℝ :=
  let mean_x := mean sample_x
  let mean_y := mean sample_y
  let s := pearsonSums mean_x mean_y (sample_x.zip sample_y)
  (s.1 : ℝ) / Real.sqrt ((s.2.1 : ℝ) * (s.2.2 : ℝ))

/-- The Pearson formula as the spec words it for the mismatched-length case
(refinement-comparison definition, written from the spec's sentences, to be
compared with `pearson_r` from the source): the centered sums range over the
first `min (|X|) (|Y|)` pairs — the "silently truncated zip" — while the two
means are taken over the full series, and the result is the sum of centered
products divided by the square root of the product of the centered squares. -/
noncomputable def pearsonSpecTruncated (x y : List ℚ) : ℝ :=
  let n : ℕ := min x.length y.length
  let xs : List ℚ := x.take n
  let ys : List ℚ := y.take n
  let t : ℚ := ((xs.zip ys).map (fun p => (p.1 - mean x) * (p.2 - mean y))).sum
  let bx : ℚ := (xs.map (fun u => (u - mean x) ^ 2)).sum
  let bY : ℚ := (ys.map (fun v => (v - mean y) ^ 2)).sum
  (t : ℝ) / Real.sqrt ((bx : ℝ) * (bY : ℝ))

/-- Embedding of `scale_min_max` (`src/math/series.rs`, lines 191-201): maps
each element `x` to `a + (x - min_val) * ba / div` with `ba = b - a` and
`div = max_val - min_val`.  The division is performed unconditionally, with no
degenerate-range check. -/
def scale_min_max (val : List ℚ) (a b : ℚ) : List ℚ :=
  let max_val := max_slice val
  let min_val := min_slice val
  let ba := b - a
  let div := max_val - min_val
  val.map (fun x => a + (x - min_val) * ba / div)

/-- Embedding of the `Spherical` struct (`src/coordinate/spherical.rs`,
lines 29-37): radial distance `r`, longitude `theta`, latitude `phi`. -/
structure Spherical where
  r : ℚ
  theta : ℚ
  phi : ℚ
  deriving DecidableEq, Repr

/-- Embedding of `impl Mul<T> for Spherical` (`src/coordinate/spherical.rs`,
lines 102-111): multiplies `r` by the scalar, passes the angles through. -/
def Spherical.mul (s : Spherical) (rhs : ℚ) : Spherical :=
  { r := s.r * rhs, theta := s.theta, phi := s.phi }

/-- Embedding of `impl MulAssign<T> for Spherical`
(`src/coordinate/spherical.rs`, lines 125-129): `self.r *= rhs`, the other
fields untouched.  Rust mutation is modelled by returning the updated value. -/
def Spherical.mulAssign (s : Spherical) (rhs : ℚ) : Spherical :=
  { s with r := s.r * rhs }

/-- Embedding of `impl Div<T> for Spherical` (`src/coordinate/spherical.rs`,
lines 143-152): divides `r` by the scalar with no zero check, passes the
angles through. -/
def Spherical.div (s : Spherical) (rhs : ℚ) : Spherical :=
  { r := s.r / rhs, theta := s.theta, phi := s.phi }

/-- Embedding of `impl DivAssign<T> for Spherical`
(`src/coordinate/spherical.rs`, lines 166-170): `self.r /= rhs`. -/
def Spherical.divAssign (s : Spherical) (rhs : ℚ) : Spherical :=
  { s with r := s.r / rhs }

/-- Embedding of `impl Neg for Spherical` (`src/coordinate/spherical.rs`,
lines 172-177): defined as `self * -1`. -/
def Spherical.neg (s : Spherical) : Spherical :=
  s.mul (-1)

end Scilib

namespace Scilib

/-! Helper lemmas about the strict-comparison scans of `max_slice` and
`min_slice`. -/

lemma foldl_max_init_le (c : ℚ) (l : List ℚ) :
    c ≤ l.foldl (fun current_max v => if current_max < v then v else current_max) c := by
  induction l generalizing c with
  | nil => exact le_rfl
  | cons a t ih =>
      simp only [List.foldl_cons]
      refine le_trans ?_ (ih (if c < a then a else c))
      by_cases hca : c < a
      · simp [hca, le_of_lt hca]
      · simp [hca]

lemma foldl_max_mem (c : ℚ) (l : List ℚ) :
    l.foldl (fun current_max v => if current_max < v then v else current_max) c = c ∨
    l.foldl (fun current_max v => if current_max < v then v else current_max) c ∈ l := by
  induction l generalizing c with
  | nil => exact Or.inl rfl
  | cons a t ih =>
      simp only [List.foldl_cons]
      rcases ih (if c < a then a else c) with h | h
      · rw [h]
        by_cases hca : c < a
        · simp [hca]
        · simp [hca]
      · exact Or.inr (List.mem_cons_of_mem a h)

lemma foldl_max_le (c : ℚ) (l : List ℚ) :
    ∀ x ∈ l, x ≤ l.foldl (fun current_max v => if current_max < v then v else current_max) c := by
  induction l generalizing c with
  | nil => intro x hx; cases hx
  | cons a t ih =>
      intro x hx
      simp only [List.foldl_cons]
      rcases List.mem_cons.mp hx with rfl | hx
      · refine le_trans ?_ (foldl_max_init_le _ t)
        by_cases hca : c < x
        · simp [hca]
        · simp only [hca, if_false]
          exact le_of_not_lt hca
      · exact ih _ x hx

lemma foldl_min_le_init (c : ℚ) (l : List ℚ) :
    l.foldl (fun current_min v => if v < current_min then v else current_min) c ≤ c := by
  induction l generalizing c with
  | nil => exact le_rfl
  | cons a t ih =>
      simp only [List.foldl_cons]
      refine le_trans (ih (if a < c then a else c)) ?_
      by_cases hac : a < c
      · simp [hac, le_of_lt hac]
      · simp [hac]

lemma foldl_min_mem (c : ℚ) (l : List ℚ) :
    l.foldl (fun current_min v => if v < current_min then v else current_min) c = c ∨
    l.foldl (fun current_min v => if v < current_min then v else current_min) c ∈ l := by
  induction l generalizing c with
  | nil => exact Or.inl rfl
  | cons a t ih =>
      simp only [List.foldl_cons]
      rcases ih (if a < c then a else c) with h | h
      · rw [h]
        by_cases hac : a < c
        · simp [hac]
        · simp [hac]
      · exact Or.inr (List.mem_cons_of_mem a h)

lemma foldl_min_le (c : ℚ) (l : List ℚ) :
    ∀ x ∈ l, l.foldl (fun current_min v => if v < current_min then v else current_min) c ≤ x := by
  induction l generalizing c with
  | nil => intro x hx; cases hx
  | cons a t ih =>
      intro x hx
      simp only [List.foldl_cons]
      rcases List.mem_cons.mp hx with rfl | hx
      · refine le_trans (foldl_min_le_init _ t) ?_
        by_cases hac : x < c
        · simp [hac]
        · simp only [hac, if_false]
          exact le_of_not_lt hac
      · exact ih _ x hx

lemma headD_mem (l : List ℚ) (h : l ≠ []) : l.headD 0 ∈ l := by
  cases l with
  | nil => exact absurd rfl h
  | cons a t => exact List.mem_cons_self a t

lemma max_slice_mem (l : List ℚ) (h : l ≠ []) : max_slice l ∈ l := by
  rcases foldl_max_mem (l.headD 0) l with heq | hmem
  · rw [max_slice, heq]; exact headD_mem l h
  · exact hmem

lemma max_slice_is_ub (l : List ℚ) : ∀ x ∈ l, x ≤ max_slice l :=
  foldl_max_le (l.headD 0) l

lemma min_slice_mem (l : List ℚ) (h : l ≠ []) : min_slice l ∈ l := by
  rcases foldl_min_mem (l.headD 0) l with heq | hmem
  · rw [min_slice, heq]; exact headD_mem l h
  · exact hmem

lemma min_slice_is_lb (l : List ℚ) : ∀ x ∈ l, min_slice l ≤ x :=
  foldl_min_le (l.headD 0) l

/-! Helper lemmas about the accumulator loops of `mean`, `std_dev` and
`pearson_r`. -/

lemma foldl_plus_eq_sum (l : List ℚ) (c : ℚ) :
    l.foldl (fun sum v => sum + v) c = c + l.sum := by
  induction l generalizing c with
  | nil => simp
  | cons a t ih =>
      rw [List.foldl_cons, ih, List.sum_cons]
      ring

lemma foldl_addf_eq_sum (f : ℚ → ℚ) (l : List ℚ) (c : ℚ) :
    l.foldl (fun sum v => sum + f v) c = c + (l.map f).sum := by
  induction l generalizing c with
  | nil => simp
  | cons a t ih =>
      rw [List.foldl_cons, ih, List.map_cons, List.sum_cons]
      ring

lemma pearsonSums_loop (mx my : ℚ) (pairs : List (ℚ × ℚ)) (t0 bx0 by0 : ℚ) :
    pairs.foldl
      (fun acc p =>
        (acc.1 + (p.1 - mx) * (p.2 - my),
         acc.2.1 + (p.1 - mx) ^ 2,
         acc.2.2 + (p.2 - my) ^ 2))
      (t0, bx0, by0) =
      (t0 + (pairs.map (fun p => (p.1 - mx) * (p.2 - my))).sum,
       bx0 + (pairs.map (fun p => (p.1 - mx) ^ 2)).sum,
       by0 + (pairs.map (fun p => (p.2 - my) ^ 2)).sum) := by
  induction pairs generalizing t0 bx0 by0 with
  | nil => simp
  | cons p ps ih =>
      rw [List.foldl_cons, ih]
      simp only [List.map_cons, List.sum_cons, Prod.mk.injEq]
      refine ⟨by ring, by ring, by ring⟩

lemma pearsonSums_eq (mx my : ℚ) (pairs : List (ℚ × ℚ)) :
    pearsonSums mx my pairs =
      ((pairs.map (fun p => (p.1 - mx) * (p.2 - my))).sum,
       (pairs.map (fun p => (p.1 - mx) ^ 2)).sum,
       (pairs.map (fun p => (p.2 - my) ^ 2)).sum) := by
  rw [pearsonSums, pearsonSums_loop]
  simp

lemma zip_take_min (x y : List ℚ) :
    x.zip y = (x.take (min x.length y.length)).zip (y.take (min x.length y.length)) := by
  induction x generalizing y with
  | nil => simp
  | cons a xs ih =>
      cases y with
      | nil => simp
      | cons b ys =>
          simp only [List.length_cons, Nat.succ_min_succ, List.take_succ_cons,
            List.zip_cons_cons]
          rw [ih ys]

lemma zip_self (l : List ℚ) : l.zip l = l.map (fun x => (x, x)) := by
  induction l with
  | nil => rfl
  | cons a t ih => simp [List.zip_cons_cons, ih]

/-- C5: the claim asserts `scale_min_max [1,2,3,4,5,6] 2 (-1)` has `0.5` at
index 3 (input value 4).  It does not: the affine map is
`x ↦ 2 + (x - 1) * (-3) / 5`, so value 4 goes to `1/5 = 0.2`, not `1/2`. -/
theorem scale_min_max_example_index3_cex :
    scale_min_max [1, 2, 3, 4, 5, 6] 2 (-1) =
      [2, 7/5, 4/5, 1/5, -2/5, -1] ∧ (1 / 5 : ℚ) ≠ 1 / 2 := by
  constructor
  · norm_num [scale_min_max, max_slice, min_slice, List.foldl, List.map]
  · norm_num

/-- C5 (amended): `scale_min_max [1,2,3,4,5,6] 2 (-1)` has first element `2`,
last element `-1`, is strictly decreasing with constant step `-3/5` (affine
and monotonic), and its element at index 3 (input value 4) is `0.2`. -/
theorem scale_min_max_example_amended :
    scale_min_max [1, 2, 3, 4, 5, 6] 2 (-1) = [2, 7/5, 4/5, 1/5, -2/5, -1] ∧
    (scale_min_max [1, 2, 3, 4, 5, 6] 2 (-1)).headD 0 = 2 ∧
    (scale_min_max [1, 2, 3, 4, 5, 6] 2 (-1)).getLastD 0 = -1 ∧
    (scale_min_max [1, 2, 3, 4, 5, 6] 2 (-1)).Chain' (fun u v => v = u - 3/5) ∧
    (scale_min_max [1, 2, 3, 4, 5, 6] 2 (-1)).getD 3 0 = 1/5 := by
  have h : scale_min_max [1, 2, 3, 4, 5, 6] 2 (-1) = [2, 7/5, 4/5, 1/5, -2/5, -1] := by
    norm_num [scale_min_max, max_slice, min_slice, List.foldl, List.map]
  refine ⟨h, ?_, ?_, ?_, ?_⟩ <;> rw [h] <;> norm_num [List.chain'_cons]

/-- C7: for every non-empty series, `max_slice` returns the greatest element
(a member of the series that bounds every element from above) via its strict
greater-than scan from the first element, and `min_slice` symmetrically
returns the least element via its strict less-than scan.  Over numeric values
the tie-keeping behaviour (first-seen extremum kept, since the comparison is
strict) is value-indistinguishable: the returned value is the extremum. -/
theorem max_min_slice_correct (l : List ℚ) (h : l ≠ []) :
    (max_slice l ∈ l ∧ ∀ x ∈ l, x ≤ max_slice l) ∧
    (min_slice l ∈ l ∧ ∀ x ∈ l, min_slice l ≤ x) :=
  ⟨⟨max_slice_mem l h, max_slice_is_ub l⟩, ⟨min_slice_mem l h, min_slice_is_lb l⟩⟩

/-- Witness for C7 at the series `[3, 1, 3]` (which contains a tie). -/
theorem max_min_slice_correct_witness :
    (max_slice [3, 1, 3] ∈ ([3, 1, 3] : List ℚ) ∧
      ∀ x ∈ ([3, 1, 3] : List ℚ), x ≤ max_slice [3, 1, 3]) ∧
    (min_slice [3, 1, 3] ∈ ([3, 1, 3] : List ℚ) ∧
      ∀ x ∈ ([3, 1, 3] : List ℚ), min_slice [3, 1, 3] ≤ x) :=
  max_min_slice_correct [3, 1, 3] (by simp)

/-- A `getD` projection through `List.map`, used to track where each input
position lands in the output of `scale_min_max`. -/
lemma getD_map (f : ℚ → ℚ) (l : List ℚ) (i : ℕ) (hi : i < l.length) :
    (l.map f).getD i 0 = f (l.getD i 0) := by
  have hsome : l[i]? = some l[i] := List.getElem?_eq_getElem hi
  rw [List.getD_eq_getElem?_getD, List.getD_eq_getElem?_getD, List.getElem?_map, hsome]
  rfl

/-- C2: for every non-empty series whose maximum and minimum differ,
`scale_min_max` returns exactly the map
`x ↦ a + (x - min) * (b - a) / (max - min)`, and every position holding the
minimum maps to `a` while every position holding the maximum maps to `b`. -/
theorem scale_min_max_formula (l : List ℚ) (a b : ℚ) (h : l ≠ [])
    (hne : max_slice l ≠ min_slice l) :
    scale_min_max l a b =
      l.map (fun x => a + (x - min_slice l) * (b - a) / (max_slice l - min_slice l)) ∧
    ∀ i, i < l.length →
      (l.getD i 0 = min_slice l → (scale_min_max l a b).getD i 0 = a) ∧
      (l.getD i 0 = max_slice l → (scale_min_max l a b).getD i 0 = b) := by
  have hd : max_slice l - min_slice l ≠ 0 := sub_ne_zero.mpr hne
  have hmap : scale_min_max l a b =
      l.map (fun x => a + (x - min_slice l) * (b - a) / (max_slice l - min_slice l)) := rfl
  refine ⟨hmap, fun i hi => ?_⟩
  rw [hmap, getD_map _ l i hi]
  constructor
  · intro hx
    rw [hx]
    simp
  · intro hx
    rw [hx]
    have hcoef : (max_slice l - min_slice l) * (b - a) / (max_slice l - min_slice l)
        = b - a := by
      rw [mul_comm, mul_div_assoc, div_self hd, mul_one]
    rw [hcoef]
    ring

/-- Witness for C2 at the series `[1, 2, 3, 4, 5, 6]` with targets
`a = 2`, `b = -1`. -/
theorem scale_min_max_formula_witness :
    scale_min_max [1, 2, 3, 4, 5, 6] 2 (-1) =
      ([1, 2, 3, 4, 5, 6] : List ℚ).map
        (fun x => 2 + (x - min_slice [1, 2, 3, 4, 5, 6]) * (-1 - 2) /
          (max_slice [1, 2, 3, 4, 5, 6] - min_slice [1, 2, 3, 4, 5, 6])) ∧
    ∀ i, i < ([1, 2, 3, 4, 5, 6] : List ℚ).length →
      (([1, 2, 3, 4, 5, 6] : List ℚ).getD i 0 = min_slice [1, 2, 3, 4, 5, 6] →
        (scale_min_max [1, 2, 3, 4, 5, 6] 2 (-1)).getD i 0 = 2) ∧
      (([1, 2, 3, 4, 5, 6] : List ℚ).getD i 0 = max_slice [1, 2, 3, 4, 5, 6] →
        (scale_min_max [1, 2, 3, 4, 5, 6] 2 (-1)).getD i 0 = -1) :=
  scale_min_max_formula [1, 2, 3, 4, 5, 6] 2 (-1) (by simp)
    (by norm_num [max_slice, min_slice, List.foldl])

/-- C3: the claim asserts `scale_min_max` reports a `DegenerateRange` error on
a constant series.  It does not: `scale_min_max [3, 3] 0 1` has a degenerate
range (`max = min`) yet still returns a 2-element series, performing the
division by `max - min = 0` (NaN in IEEE `f64` arithmetic). -/
theorem scale_min_max_degenerate_cex :
    max_slice [3, 3] = min_slice [3, 3] ∧
    (scale_min_max [3, 3] 0 1).length = 2 := by
  constructor
  · norm_num [max_slice, min_slice, List.foldl]
  · simp [scale_min_max]

/-- C3 (amended): `scale_min_max` performs no degenerate-range check: on a
non-empty constant series it still applies
`x ↦ a + (x - min) * (b - a) / (max - min)` with divisor `max - min = 0`
(a division by zero, which yields NaN in IEEE `f64` arithmetic) and returns a
series of the input's length; no `DegenerateRange` error is raised. -/
theorem scale_min_max_degenerate_amended (l : List ℚ) (c a b : ℚ) (h : l ≠ [])
    (hc : ∀ x ∈ l, x = c) :
    max_slice l - min_slice l = 0 ∧
    scale_min_max l a b =
      l.map (fun x => a + (x - min_slice l) * (b - a) / (max_slice l - min_slice l)) ∧
    (scale_min_max l a b).length = l.length := by
  have hmax : max_slice l = c := hc _ (max_slice_mem l h)
  have hmin : min_slice l = c := hc _ (min_slice_mem l h)
  exact ⟨by rw [hmax, hmin, sub_self], rfl, by simp [scale_min_max]⟩

/-- Witness for the amended C3 at the constant series `[3, 3]` with targets
`a = 0`, `b = 1`. -/
theorem scale_min_max_degenerate_amended_witness :
    max_slice [3, 3] - min_slice [3, 3] = 0 ∧
    scale_min_max [3, 3] 0 1 =
      ([3, 3] : List ℚ).map
        (fun x => 0 + (x - min_slice [3, 3]) * (1 - 0) /
          (max_slice [3, 3] - min_slice [3, 3])) ∧
    (scale_min_max [3, 3] 0 1).length = ([3, 3] : List ℚ).length :=
  scale_min_max_degenerate_amended [3, 3] 3 0 1 (by simp)
    (by intro x hx; simpa using hx)

/-- C8: scalar multiplication and division on `Spherical` change only the
radial component `r` (to `r * k`, resp. `r / k`) and return `theta` and `phi`
unchanged; negation is multiplication by `-1`, flipping the sign of `r` only
and leaving both angles unchanged. -/
theorem spherical_scalar_ops_touch_only_r (s : Spherical) (k : ℚ) :
    s.mul k = ⟨s.r * k, s.theta, s.phi⟩ ∧
    s.div k = ⟨s.r / k, s.theta, s.phi⟩ ∧
    s.neg = s.mul (-1) ∧
    s.neg = ⟨-s.r, s.theta, s.phi⟩ := by
  refine ⟨rfl, rfl, rfl, ?_⟩
  simp [Spherical.neg, Spherical.mul]

/-- C10: the in-place forms agree with the pure forms field by field: the
value after `p *= k` equals `p * k`, and the value after `p /= k` equals
`p / k`. -/
theorem spherical_assign_ops_agree (s : Spherical) (k : ℚ) :
    s.mulAssign k = s.mul k ∧ s.divAssign k = s.div k :=
  ⟨rfl, rfl⟩

/-- C4: the claim asserts scalar division of a `Spherical` point by zero
raises a `DivideByZero` error.  It does not: division is unguarded, and at
`⟨1, 1/5, 21/10⟩ / 0` the code returns a point — the raw quotient as radius
(`+inf` in IEEE `f64`; Lean's total-division convention renders the raw
quotient `1 / 0` in the exact model) with both angles unchanged — rather
than an error. -/
theorem spherical_div_zero_cex :
    Spherical.div ⟨1, 1/5, 21/10⟩ 0 = ⟨(1 : ℚ) / 0, 1/5, 21/10⟩ ∧
    (Spherical.div ⟨1, 1/5, 21/10⟩ 0).theta = 1/5 ∧
    (Spherical.div ⟨1, 1/5, 21/10⟩ 0).phi = 21/10 :=
  ⟨rfl, rfl, rfl⟩

/-- C4 (amended): scalar division of a `Spherical` point by zero is not
guarded: it returns a point whose radius is the raw quotient `r / 0`
(infinite in IEEE `f64` arithmetic) with `theta` and `phi` unchanged; no
`DivideByZero` error is raised. -/
theorem spherical_div_zero_amended (s : Spherical) :
    s.div 0 = ⟨s.r / 0, s.theta, s.phi⟩ ∧
    (s.div 0).theta = s.theta ∧ (s.div 0).phi = s.phi :=
  ⟨rfl, rfl, rfl⟩

/-- C1: the claim asserts `pearson_r` reports a `LengthMismatch` error on
series of different lengths.  It does not: at the mismatched input
`X = [0, 2]`, `Y = [1, 3, 2]` the code returns the plain value `1`, its loop
having silently stopped after the zipped pairs. -/
theorem pearson_r_length_mismatch_cex :
    ([0, 2] : List ℚ).length ≠ ([1, 3, 2] : List ℚ).length ∧
    pearson_r [0, 2] [1, 3, 2] = 1 := by
  constructor
  · simp
  · have h : pearsonSums (mean [0, 2]) (mean [1, 3, 2])
        (([0, 2] : List ℚ).zip [1, 3, 2]) = (2, 2, 2) := by
      norm_num [pearsonSums, mean, List.foldl, List.zip, List.zipWith, Prod.ext_iff]
    rw [pearson_r, h]
    push_cast
    rw [show ((2:ℝ) * 2) = 2 ^ 2 by ring, Real.sqrt_sq (by norm_num : (0:ℝ) ≤ 2)]
    norm_num

/-- C1 (amended): `pearson_r` performs no length check and raises no error:
for every pair of input series it returns the coefficient whose centered sums
range over only the first `min (|X|) (|Y|)` pairs (the zip silently truncates
the loop) while the two means are still computed over the full series. -/
theorem pearson_r_truncates (x y : List ℚ) :
    pearson_r x y = pearsonSpecTruncated x y := by
  have hlx : (x.take (min x.length y.length)).length = min x.length y.length := by
    rw [List.length_take, Nat.min_eq_left (Nat.min_le_left _ _)]
  have hly : (y.take (min x.length y.length)).length = min x.length y.length := by
    rw [List.length_take, Nat.min_eq_left (Nat.min_le_right _ _)]
  have hfst : ((x.take (min x.length y.length)).zip
        (y.take (min x.length y.length))).map Prod.fst
      = x.take (min x.length y.length) :=
    List.map_fst_zip _ _ (by rw [hlx, hly])
  have hsnd : ((x.take (min x.length y.length)).zip
        (y.take (min x.length y.length))).map Prod.snd
      = y.take (min x.length y.length) :=
    List.map_snd_zip _ _ (by rw [hlx, hly])
  have hbx0 : ((x.take (min x.length y.length)).zip
        (y.take (min x.length y.length))).map (fun p => ((p.1 - mean x) ^ 2 : ℚ))
      = (((x.take (min x.length y.length)).zip
        (y.take (min x.length y.length))).map Prod.fst).map
          (fun u => ((u - mean x) ^ 2 : ℚ)) := by
    rw [List.map_map]
    exact List.map_congr_left (fun p _ => rfl)
  have hby0 : ((x.take (min x.length y.length)).zip
        (y.take (min x.length y.length))).map (fun p => ((p.2 - mean y) ^ 2 : ℚ))
      = (((x.take (min x.length y.length)).zip
        (y.take (min x.length y.length))).map Prod.snd).map
          (fun v => ((v - mean y) ^ 2 : ℚ)) := by
    rw [List.map_map]
    exact List.map_congr_left (fun p _ => rfl)
  rw [hfst] at hbx0
  rw [hsnd] at hby0
  rw [pearson_r, pearsonSpecTruncated, zip_take_min x y, pearsonSums_eq, hbx0, hby0]

/-- C9: for every series with at least two differing elements, the
self-correlation `pearson_r l l` is exactly `1`: the three accumulated sums
coincide with the sum `S` of squared deviations, which is positive, and
`S / sqrt (S * S) = 1`. -/
theorem pearson_r_self (l : List ℚ) (hx : ∃ u ∈ l, ∃ v ∈ l, u ≠ v) :
    pearson_r l l = 1 := by
  obtain ⟨u, hu, v, hv, huv⟩ := hx
  set m := mean l with hm
  have hzip : l.zip l = l.map (fun x => (x, x)) := zip_self l
  have hsums : pearsonSums m m (l.zip l) =
      ((l.map (fun x => (x - m) * (x - m))).sum,
       (l.map (fun x => (x - m) * (x - m))).sum,
       (l.map (fun x => (x - m) * (x - m))).sum) := by
    rw [hzip, pearsonSums_eq]
    simp only [List.map_map, Prod.mk.injEq]
    refine ⟨?_, ?_, ?_⟩ <;>
      · refine congrArg List.sum (List.map_congr_left ?_)
        intro x _
        simp [pow_two]
  set S : ℚ := (l.map (fun x => (x - m) * (x - m))).sum with hS
  have hnonneg : ∀ z ∈ l.map (fun x => (x - m) * (x - m)), 0 ≤ z := by
    intro z hz
    obtain ⟨x, _, rfl⟩ := List.mem_map.mp hz
    exact mul_self_nonneg _
  have hpos : 0 < S := by
    have hone : ∃ w ∈ l, w ≠ m := by
      by_cases hum : u = m
      · exact ⟨v, hv, by rw [← hum]; exact fun hh => huv hh.symm⟩
      · exact ⟨u, hu, hum⟩
    obtain ⟨w, hw, hwm⟩ := hone
    have hmem : (w - m) * (w - m) ∈ l.map (fun x => (x - m) * (x - m)) :=
      List.mem_map.mpr ⟨w, hw, rfl⟩
    have hterm : 0 < (w - m) * (w - m) := mul_self_pos.mpr (sub_ne_zero.mpr hwm)
    exact lt_of_lt_of_le hterm (List.single_le_sum hnonneg _ hmem)
  have hSR : (0:ℝ) < (S : ℝ) := by exact_mod_cast hpos
  rw [pearson_r, hsums, Real.sqrt_mul_self hSR.le]
  exact div_self (ne_of_gt hSR)

/-- Witness for C9 at the non-constant series `[0, 1]`. -/
theorem pearson_r_self_witness : pearson_r [0, 1] [0, 1] = 1 :=
  pearson_r_self [0, 1] ⟨0, by simp, 1, by simp, by norm_num⟩

/-- C6: for every non-empty series, `mean` is the sum divided by the count
and `std_dev` is the population standard deviation — the square root of the
mean of squared deviations from the mean, with denominator `n` (not `n - 1`);
concretely `mean [0,1,2,3,4,5] = 5/2` and `std_dev [0,1,2,3,4,5]` is within
`1e-10` of `1.707825127659933`. -/
theorem std_dev_population_spec :
    (∀ l : List ℚ, l ≠ [] →
      mean l = l.sum / (l.length : ℚ) ∧
      std_dev l = Real.sqrt
        ((((l.map (fun x => (x - mean l) ^ 2)).sum : ℚ) : ℝ) / (l.length : ℝ))) ∧
    mean [0, 1, 2, 3, 4, 5] = 5 / 2 ∧
    |std_dev [0, 1, 2, 3, 4, 5] - 1.707825127659933| < 1e-10 := by
  refine ⟨fun l h => ⟨?_, ?_⟩, ?_, ?_⟩
  · rw [mean, foldl_plus_eq_sum, zero_add]
  · have hfold : sqDevSum l = (l.map (fun v => (v - mean l) ^ 2)).sum := by
      have h0 := foldl_addf_eq_sum (fun v => (v - mean l) ^ 2) l 0
      simpa [sqDevSum] using h0
    rw [std_dev, hfold]
    push_cast
    rfl
  · norm_num [mean, List.foldl]
  · have hval : std_dev [0, 1, 2, 3, 4, 5] = Real.sqrt (35 / 12) := by
      have h : sqDevSum [0, 1, 2, 3, 4, 5] = 35 / 2 := by
        norm_num [sqDevSum, mean, List.foldl]
      rw [std_dev, h]
      norm_num
    rw [hval]
    have h1 : Real.sqrt (35 / 12) < 1.707825127659933 + 1e-10 := by
      rw [Real.sqrt_lt' (by norm_num)]
      norm_num
    have h2 : (1.707825127659933 - 1e-10 : ℝ) < Real.sqrt (35 / 12) := by
      rw [Real.lt_sqrt (by norm_num)]
      norm_num
    rw [abs_sub_lt_iff]
    constructor <;> linarith

/-- Witness for C6 at the series `[0, 1, 2, 3, 4, 5]`. -/
theorem std_dev_population_spec_witness :
    mean [0, 1, 2, 3, 4, 5] =
      ([0, 1, 2, 3, 4, 5] : List ℚ).sum / (([0, 1, 2, 3, 4, 5] : List ℚ).length : ℚ) ∧
    std_dev [0, 1, 2, 3, 4, 5] = Real.sqrt
      ((((([0, 1, 2, 3, 4, 5] : List ℚ).map
          (fun x => (x - mean [0, 1, 2, 3, 4, 5]) ^ 2)).sum : ℚ) : ℝ) /
        (([0, 1, 2, 3, 4, 5] : List ℚ).length : ℝ)) :=
  std_dev_population_spec.1 [0, 1, 2, 3, 4, 5] (by simp)

end Scilib
